import Mathlib

/-!
Shallow embedding of `src/dynamicclassifyobjects.py` (the CellProfiler
`DynamicClassifyObjects` module).  The numeric core of the module —
threshold construction, the membership matrix, per-bin counts and
percentages, the winning-bin label image, setting validation and the
feature naming — is translated here.  Python floats are modelled as
rationals plus an explicit NaN; the infinities that the module hstacks
onto the threshold list for the catch-all bins are modelled by a
three-way `Edge` type.
-/

namespace DynamicClassifyObjects

/-- A per-object measurement value: NaN (missing measurement) or a finite
float, modelled as a rational. -/
inductive PVal where
  | nan : PVal
  | num : ℚ → PVal
deriving DecidableEq

/-- A threshold edge.  Finite edges come from the spacing computation or
the parsed custom thresholds; `ninf`/`pinf` are the `-np.inf` / `np.inf`
that `run_single_measurement` hstacks on for the low/high catch bins. -/
inductive Edge where
  | ninf : Edge
  | num : ℚ → Edge
  | pinf : Edge
deriving DecidableEq

/-- `values[o] > thresholds[b]` with IEEE comparison semantics: a NaN
value compares False against every edge. -/
def vgt : PVal → Edge → Bool
  | .nan, _ => false
  | .num _, .ninf => true
  | .num v, .num e => decide (e < v)
  | .num _, .pinf => false

/-- `values[o] <= thresholds[b+1]` with IEEE comparison semantics: a NaN
value compares False against every edge. -/
def vle : PVal → Edge → Bool
  | .nan, _ => false
  | .num _, .ninf => false
  | .num v, .num e => decide (v ≤ e)
  | .num _, .pinf => true

/-- Order on edges (with `ninf` least and `pinf` greatest), used to state
that an edge sequence is sorted. -/
def eleb : Edge → Edge → Bool
  | .ninf, _ => true
  | _, .pinf => true
  | .num a, .num b => decide (a ≤ b)
  | _, _ => false

/-- The module's bin-spacing choice (`BC_EVEN` / `BC_CUSTOM`). -/
inductive BinChoice where
  | even : BinChoice
  | custom : BinChoice
deriving DecidableEq

/-- One settings group of the module (`add_single_measurement`): the
fields the classification logic reads.  `low_threshold`/`high_threshold`
are the already-resolved threshold values (image-based threshold
resolution is the host's concern and happens before the numeric core
runs).  `custom_thresholds` and `bin_names` are the raw text settings. -/
structure Group where
  measurement : String
  bin_choice : BinChoice
  bin_count : ℕ
  low_threshold : ℚ
  high_threshold : ℚ
  wants_low_bin : Bool
  wants_high_bin : Bool
  custom_thresholds : String
  wants_custom_names : Bool
  bin_names : String

/-- Python's `str.strip()` (whitespace removed at both ends). -/
def pyStrip (s : String) : String :=
  String.mk
    (((s.toList.dropWhile Char.isWhitespace).reverse.dropWhile
        Char.isWhitespace).reverse)

/-- Greedy left-to-right splitter on a non-empty separator, the
semantics of Python's `str.split(sep)`.  `fuel` bounds the recursion by
the input length; every step consumes at least one character, so the
fuel is never exhausted at the call sites below. -/
def pySplitGo (sep : List Char) : ℕ → List Char → List Char → List (List Char)
  | _, [], acc => [acc.reverse]
  | 0, l, acc => [acc.reverse ++ l]
  | fuel + 1, c :: rest, acc =>
    if sep.isPrefixOf (c :: rest) then
      acc.reverse :: pySplitGo sep fuel ((c :: rest).drop sep.length) []
    else
      pySplitGo sep fuel rest (c :: acc)

/-- Python's `s.split(sep)` for a non-empty separator. -/
def pySplit (sep : String) (s : String) : List String :=
  (pySplitGo sep.toList (s.toList.length + 1) s.toList []).map String.mk

/-- Numeric value of a digit string. -/
def digitsVal (l : List Char) : ℕ :=
  l.foldl (fun a c => a * 10 + (c.toNat - Char.toNat '0')) 0

/-- The unsigned part of a decimal literal: an integer part and an
optional fractional part separated by a dot, with at least one digit
overall. -/
def parseUnsigned (body : List Char) : Option ℚ :=
  match pySplitGo ['.'] (body.length + 1) body [] with
  | [ip] =>
    if 0 < ip.length && ip.all Char.isDigit then
      some (digitsVal ip : ℚ)
    else none
  | [ip, fp] =>
    if 0 < ip.length + fp.length && ip.all Char.isDigit
        && fp.all Char.isDigit then
      some ((digitsVal ip : ℚ) + (digitsVal fp : ℚ) / ((10 : ℚ) ^ fp.length))
    else none
  | _ => none

/-- Python's builtin `float(s)` on the plain decimal literals this module
deals in: optional sign, then digits with an optional fractional part.
Any other character — in particular a comma left in the token — makes
the parse fail, as `float` raises `ValueError` there. -/
def parse_float (s : String) : Option ℚ :=
  match s.toList with
  | '-' :: body => (parseUnsigned body).map (fun q => -q)
  | '+' :: body => parseUnsigned body
  | body => parseUnsigned body

/-- The validator's parse of the custom-thresholds text
(`validate_group`, lines 313-315): split on `","`, strip each token,
parse each as a float; `none` models the `ValueError` path. -/
def parse_custom_validator (s : String) : Option (List ℚ) :=
  (pySplit "," s).mapM (fun x => parse_float (pyStrip x))

/-- The run-time parse of the custom-thresholds text
(`run_single_measurement`, lines 414-415): split on `", "` — comma
followed by a space — strip each token, parse each as a float; `none`
models an uncaught `ValueError` aborting the run. -/
def parse_custom_runtime (s : String) : Option (List ℚ) :=
  (pySplit ", " s).mapM (fun x => parse_float (pyStrip x))

/-- `group.number_of_bins()` (lines 254-264): the declared total bin
count — `bin_count` if Even, else one less than the number of
comma-separated custom-threshold tokens — plus one per requested catch
bin. -/
def number_of_bins (g : Group) : ℕ :=
  let v : ℕ :=
    match g.bin_choice with
    | .even => g.bin_count
    | .custom => (pySplit "," g.custom_thresholds).length - 1
  let v := if g.wants_low_bin then v + 1 else v
  if g.wants_high_bin then v + 1 else v

/-- `measurement_name()` (lines 267-281): the measurement name, with the
count of earlier sibling groups that classify the same measurement
appended as a numeric suffix when that count is positive.  The source
walks `self.single_measurements` up to the current group; `priors` is
that prefix of earlier siblings. -/
def measurement_name (g : Group) (priors : List Group) : String :=
  let other_same := (priors.filter (fun o => o.measurement == g.measurement)).length
  if 0 < other_same then g.measurement ++ toString other_same
  else g.measurement

/-- `bin_feature_names()` (lines 283-290): the custom names split on
commas and stripped when requested, else the auto-generated
`{measurement_name}_Bin_{i+1}` names (the source's
`'_'.join((measurement_name(), 'Bin_%d' % (i+1)))`). -/
def bin_feature_names (g : Group) (priors : List Group) : List String :=
  if g.wants_custom_names then
    (pySplit "," g.bin_names).map pyStrip
  else
    (List.range (number_of_bins g)).map
      (fun i => measurement_name g priors ++ "_" ++ ("Bin_" ++ toString (i + 1)))

/-- Modelled from the spec: the host framework's
`cps.AlphanumericText.validate_alphanumeric_text` is not part of this
repository; §4.3 rule 3 of the spec describes it as accepting letters,
digits and underscore, with no leading digit. -/
def is_alphanumeric_safe (s : String) : Bool :=
  s.toList.all (fun c => c.isAlpha || c.isDigit || c == '_')
    && (match s.toList with
        | [] => true
        | c :: _ => !c.isDigit)

/-- The setting a `ValidationError` points at. -/
inductive Setting where
  | bin_count_s : Setting
  | custom_thresholds_s : Setting
  | bin_names_s : Setting
deriving DecidableEq

/-- The `cps.ValidationError`s `validate_group` can raise, tagged by
which rule fired and what it carries. -/
inductive VError where
  | too_few_bins : Setting → VError
  | bad_name_count : ℕ → ℕ → VError
  | bad_name : String → VError
  | bad_thresholds : VError
deriving DecidableEq

/-- The offending setting each error points at (the second argument of
the `cps.ValidationError` constructor at each raise site). -/
def VError.setting : VError → Setting
  | .too_few_bins s => s
  | .bad_name_count _ _ => .bin_names_s
  | .bad_name _ => .bin_names_s
  | .bad_thresholds => .custom_thresholds_s

/-- Whether an error is the bin-names-count mismatch of rule 2. -/
def VError.isNameCountError : VError → Bool
  | .bad_name_count _ _ => true
  | _ => false

/-- The outcome of `validate_group`: it returns normally or raises a
`cps.ValidationError`. -/
inductive VResult where
  | pass : VResult
  | fail : VError → VResult
deriving DecidableEq

/-- `validate_group()` (lines 293-320), with the source's rule order:
at least one bin; custom-name count matches the bin count; every feature
name alphanumeric-safe; custom thresholds all parse as floats. -/
def validate_group (g : Group) (priors : List Group) : VResult :=
  let names := bin_feature_names g priors
  let bc := number_of_bins g
  if bc < 1 then
    .fail (.too_few_bins
      (match g.bin_choice with
       | .even => .bin_count_s
       | .custom => .custom_thresholds_s))
  else if names.length ≠ bc then
    .fail (.bad_name_count names.length bc)
  else
    match names.find? (fun nm => !is_alphanumeric_safe nm) with
    | some nm => .fail (.bad_name nm)
    | none =>
      match g.bin_choice with
      | .custom =>
        match parse_custom_validator g.custom_thresholds with
        | some _ => .pass
        | none => .fail .bad_thresholds
      | .even => .pass

/-- The Even-spacing base edges (lines 409-412):
`np.arange(bin_count+1) * (high-low)/float(bin_count) + low`. -/
def even_base (low high : ℚ) (bin_count : ℕ) : List Edge :=
  (List.range (bin_count + 1)).map
    (fun i : ℕ => Edge.num ((i : ℚ) * (high - low) / (bin_count : ℚ) + low))

/-- The hstack of lines 420-422: `-inf` prepended when a low catch bin
is wanted, `inf` appended when a high catch bin is wanted. -/
def final_thresholds (g : Group) (base : List Edge) : List Edge :=
  (if g.wants_low_bin then [Edge.ninf] else [])
    ++ base
    ++ (if g.wants_high_bin then [Edge.pinf] else [])

/-- One object's row of the membership matrix (lines 426-428): for each
bin index `b` below `len(thresholds)-1`,
`values[o] > thresholds[b] && values[o] <= thresholds[b+1]`. -/
def hit_row (v : PVal) (edges : List Edge) : List Bool :=
  (List.range (edges.length - 1)).map
    (fun b => vgt v (edges.getD b .pinf) && vle v (edges.getD (b + 1) .pinf))

/-- `bin_hits[:, bin_idx].sum()` (line 436): the number of objects whose
row is True in bin `b`. -/
def num_hits (values : List PVal) (edges : List Edge) (b : ℕ) : ℕ :=
  values.countP (fun v => (hit_row v edges).getD b false)

/-- The per-bin percentage (line 443):
`100.0*float(num_hits)/num_values if num_values > 0 else 0`. -/
def pct_per_bin (values : List PVal) (edges : List Edge) (b : ℕ) : ℚ :=
  if 0 < values.length then
    100 * (num_hits values edges b : ℚ) / (values.length : ℚ)
  else 0

/-- The sum of the per-bin counts over all bins (the quantity §8 of the
spec bounds by the object count). -/
def total_hits (values : List PVal) (edges : List Edge) : ℕ :=
  ((List.range (edges.length - 1)).map (num_hits values edges)).sum

/-- `np.sum(bin_hits * th_idx, 1)` for one row: the sum over bins of
`row[b] * b`, accumulated with the current bin index threaded through. -/
def weighted_sum : List Bool → ℕ → ℕ
  | [], _ => 0
  | h :: t, b => (if h then b else 0) + weighted_sum t (b + 1)

/-- `object_bins` (line 446): `np.sum(bin_hits * th_idx, 1) + 1`. -/
def object_bins (row : List Bool) : ℕ :=
  weighted_sum row 0 + 1

/-- The per-object label used to paint the output image (lines 446-448):
`object_bins`, except that an object whose value is NaN is forced to
label 0 (`object_color[np.hstack((False, np.isnan(values)))] = 0`; the
prepended sentinel is the background entry of the label lookup and not a
per-object value). -/
def object_label (v : PVal) (row : List Bool) : ℕ :=
  match v with
  | .nan => 0
  | .num _ => object_bins row

/-! Concrete settings groups used to evaluate the embedding.  They share
the default values of the settings that do not matter for the point
being made (`bin_count` 3, thresholds 0 and 1, `bin_names` `"None"`). -/

/-- Custom spacing with thresholds text `"0,1,2"`, no catch bins, no
custom names — the validated spec of the spec's own worked example. -/
def gCustom012 : Group :=
  { measurement := "M", bin_choice := .custom, bin_count := 3,
    low_threshold := 0, high_threshold := 1,
    wants_low_bin := false, wants_high_bin := false,
    custom_thresholds := "0,1,2",
    wants_custom_names := false, bin_names := "None" }

/-- Custom spacing with the decreasing thresholds text `"3,2,1"`. -/
def gCustom321 : Group :=
  { gCustom012 with custom_thresholds := "3,2,1" }

/-- Custom spacing with the decreasing thresholds text `"3, 2, 1"`
(comma-space separated, so the run-time split also parses it). -/
def gCustom321sp : Group :=
  { gCustom012 with custom_thresholds := "3, 2, 1" }

/-- Custom spacing with the non-monotone thresholds text
`"0, 5, 1, 10"`. -/
def gCustom0510 : Group :=
  { gCustom012 with custom_thresholds := "0, 5, 1, 10" }

/-- Custom spacing whose single threshold token yields zero bins, with
one custom bin name supplied. -/
def gZeroBins : Group :=
  { gCustom012 with
    custom_thresholds := "0",
    wants_custom_names := true,
    bin_names := "A" }

/-- Even spacing with two bins but three custom bin names. -/
def gNamesMismatch : Group :=
  { measurement := "M", bin_choice := .even, bin_count := 2,
    low_threshold := 0, high_threshold := 1,
    wants_low_bin := false, wants_high_bin := false,
    custom_thresholds := "0,1",
    wants_custom_names := true, bin_names := "A,B,C" }

/-- Even spacing with two bins and two custom bin names. -/
def gNamesMatch : Group :=
  { gNamesMismatch with bin_names := "A,B" }

/-- Even spacing, low 0, high 10, two bins and both catch bins. -/
def gEvenWitness : Group :=
  { measurement := "M", bin_choice := .even, bin_count := 2,
    low_threshold := 0, high_threshold := 10,
    wants_low_bin := true, wants_high_bin := true,
    custom_thresholds := "0,1",
    wants_custom_names := false, bin_names := "None" }

/-- Even spacing with two bins, auto-generated names. -/
def gNamesAuto : Group :=
  { gEvenWitness with
    wants_low_bin := false,
    wants_high_bin := false }

/-! Helper lemmas about the comparison primitives and the membership
rows. -/

theorem eleb_refl (e : Edge) : eleb e e = true := by
  cases e <;> simp [eleb]

theorem vgt_false_of_vle (v : PVal) (e : Edge) (h : vle v e = true) :
    vgt v e = false := by
  cases v <;> cases e <;> simp_all [vle, vgt]

theorem vle_mono (v : PVal) (e f : Edge) (h1 : vle v e = true)
    (h2 : eleb e f = true) : vle v f = true := by
  cases v <;> cases e <;> cases f <;> simp_all [vle, eleb] <;> linarith

theorem hit_row_nil (v : PVal) : hit_row v [] = [] := rfl

theorem hit_row_single (v : PVal) (e : Edge) : hit_row v [e] = [] := rfl

theorem hit_row_cons (v : PVal) (e0 e1 : Edge) (r : List Edge) :
    hit_row v (e0 :: e1 :: r)
      = (vgt v e0 && vle v e1) :: hit_row v (e1 :: r) := by
  simp only [hit_row, List.length_cons, Nat.add_sub_cancel,
    List.range_succ_eq_map, List.map_cons, List.map_map]
  rfl

theorem hit_row_length (v : PVal) (edges : List Edge) :
    (hit_row v edges).length = edges.length - 1 := by
  simp [hit_row]

/-- Once a value sits at or below an edge, every later bin test in a
sorted tail of the edge sequence is False. -/
theorem hit_row_all_false_of_vle (v : PVal) : ∀ (r : List Edge) (e : Edge),
    vle v e = true →
    List.Pairwise (fun a b => eleb a b = true) (e :: r) →
    ∀ x ∈ hit_row v (e :: r), x = false := by
  intro r
  induction r with
  | nil => intro e _ _; simp [hit_row_single]
  | cons e2 t ih =>
    intro e hle hs
    rw [hit_row_cons]
    intro x hx
    rcases List.mem_cons.mp hx with hhd | htl
    · have hgt : vgt v e = false := vgt_false_of_vle v e hle
      rw [hhd, hgt, Bool.false_and]
    · have hrel : eleb e e2 = true :=
        (List.pairwise_cons.mp hs).1 e2 (List.mem_cons_self e2 t)
      exact ih e2 (vle_mono v e e2 hle hrel) (List.pairwise_cons.mp hs).2 x htl

/-- For a sorted edge sequence each membership row holds at most one
True: the bins are mutually exclusive. -/
theorem hit_row_count_le_one (v : PVal) : ∀ (edges : List Edge),
    List.Pairwise (fun a b => eleb a b = true) edges →
    (hit_row v edges).count true ≤ 1 := by
  intro edges
  induction edges with
  | nil => intro _; simp [hit_row_nil]
  | cons e0 t ih =>
    intro hs
    cases t with
    | nil => simp [hit_row_single]
    | cons e1 r =>
      rw [hit_row_cons]
      by_cases hhd : (vgt v e0 && vle v e1) = true
      · have hle : vle v e1 = true := by
          rw [Bool.and_eq_true] at hhd
          exact hhd.2
        have hall :=
          hit_row_all_false_of_vle v r e1 hle (List.pairwise_cons.mp hs).2
        have hzero : (hit_row v (e1 :: r)).count true = 0 := by
          rw [List.count_eq_zero]
          intro hmem
          exact absurd (hall true hmem) (by simp)
        simp [List.count_cons, hhd, hzero]
      · have hhd' : (vgt v e0 && vle v e1) = false := by
          simpa using hhd
        have htail := ih (List.pairwise_cons.mp hs).2
        simpa [List.count_cons, hhd'] using htail

/-! Helper lemmas for the count and percentage aggregation. -/

theorem sum_map_add (l : List ℕ) (f g : ℕ → ℕ) :
    (l.map (fun b => f b + g b)).sum = (l.map f).sum + (l.map g).sum := by
  induction l with
  | nil => rfl
  | cons a t ih =>
    simp only [List.map_cons, List.sum_cons, ih]
    omega

theorem sum_indicator_eq_count (l : List Bool) :
    ((List.range l.length).map (fun b => if l.getD b false then 1 else 0)).sum
      = l.count true := by
  induction l with
  | nil => rfl
  | cons a t ih =>
    rw [List.length_cons, List.range_succ_eq_map, List.map_cons, List.map_map,
      List.sum_cons]
    have htail :
        ((List.range t.length).map
            ((fun b => if (a :: t).getD b false then 1 else 0) ∘ (· + 1))).sum
          = t.count true := by
      have hfun :
          ((fun b => if (a :: t).getD b false then 1 else 0) ∘ (· + 1))
            = fun b => if t.getD b false then 1 else 0 := rfl
      rw [hfun, ih]
    rw [htail]
    cases a <;> simp [List.count_cons] <;> omega

theorem num_hits_nil (edges : List Edge) (b : ℕ) :
    num_hits [] edges b = 0 := rfl

theorem num_hits_cons (v : PVal) (vs : List PVal) (edges : List Edge)
    (b : ℕ) :
    num_hits (v :: vs) edges b
      = num_hits vs edges b
        + (if (hit_row v edges).getD b false then 1 else 0) := by
  simp [num_hits, List.countP_cons]

theorem total_hits_nil (edges : List Edge) : total_hits [] edges = 0 := by
  unfold total_hits
  have hmap : (List.range (edges.length - 1)).map (num_hits [] edges)
      = (List.range (edges.length - 1)).map (fun _ => 0) := by
    apply List.map_congr_left
    intro b _
    exact num_hits_nil edges b
  simp [hmap]

theorem total_hits_cons (v : PVal) (vs : List PVal) (edges : List Edge) :
    total_hits (v :: vs) edges
      = total_hits vs edges + (hit_row v edges).count true := by
  unfold total_hits
  have hmap :
      (List.range (edges.length - 1)).map (num_hits (v :: vs) edges)
        = (List.range (edges.length - 1)).map
            (fun b => num_hits vs edges b
              + (if (hit_row v edges).getD b false then 1 else 0)) := by
    apply List.map_congr_left
    intro b _
    exact num_hits_cons v vs edges b
  rw [hmap, sum_map_add]
  have hcount :
      ((List.range (edges.length - 1)).map
          (fun b => if (hit_row v edges).getD b false then 1 else 0)).sum
        = (hit_row v edges).count true := by
    have hlen := hit_row_length v edges
    rw [← hlen]
    exact sum_indicator_eq_count (hit_row v edges)
  rw [hcount]

/-- A list of naturals each at most 1 sums to its length exactly when
every entry is 1. -/
theorem sum_le_length_of_all_le_one (l : List ℕ) (h : ∀ x ∈ l, x ≤ 1) :
    l.sum ≤ l.length ∧ (l.sum = l.length ↔ ∀ x ∈ l, x = 1) := by
  induction l with
  | nil => simp
  | cons a t ih =>
    have ha : a ≤ 1 := h a (List.mem_cons_self a t)
    obtain ⟨ih1, ih2⟩ := ih (fun x hx => h x (List.mem_cons_of_mem a hx))
    constructor
    · simp only [List.sum_cons, List.length_cons]
      omega
    · simp only [List.sum_cons, List.length_cons, List.forall_mem_cons]
      constructor
      · intro hsum
        have h1 : a = 1 ∧ t.sum = t.length := by omega
        exact ⟨h1.1, ih2.mp h1.2⟩
      · intro ⟨h1, h2⟩
        rw [h1, ih2.mpr h2]
        omega

/-! Helper lemmas for the winning-bin labels. -/

theorem weighted_sum_all_false (row : List Bool)
    (h : ∀ x ∈ row, x = false) : ∀ k, weighted_sum row k = 0 := by
  induction row with
  | nil => intro k; rfl
  | cons a t ih =>
    intro k
    have ha : a = false := h a (List.mem_cons_self a t)
    have ht := ih (fun x hx => h x (List.mem_cons_of_mem a hx))
    simp [weighted_sum, ha, ht]

theorem weighted_sum_unique (row : List Bool) (b : ℕ)
    (hb : row.getD b false = true)
    (huniq : ∀ j, j < row.length → j ≠ b → row.getD j false = false) :
    ∀ k, weighted_sum row k = k + b := by
  induction row generalizing b with
  | nil => simp [List.getD] at hb
  | cons a t ih =>
    intro k
    cases b with
    | zero =>
      have ha : a = true := hb
      have ht : ∀ x ∈ t, x = false := by
        intro x hx
        obtain ⟨i, hi, hget⟩ := List.mem_iff_getElem.mp hx
        have := huniq (i + 1) (by simpa using Nat.succ_lt_succ hi)
          (Nat.succ_ne_zero i)
        rw [← hget]
        have hgd : (a :: t).getD (i + 1) false = t.getD i false := rfl
        rw [hgd] at this
        rw [← List.getD_eq_getElem t false hi]
        exact this
      simp [weighted_sum, ha, weighted_sum_all_false t ht]
    | succ b' =>
      have ha : a = false := by
        have := huniq 0 (Nat.succ_pos _) (Nat.succ_ne_zero b').symm
        exact this
      have hb' : t.getD b' false = true := hb
      have huniq' : ∀ j, j < t.length → j ≠ b' → t.getD j false = false := by
        intro j hj hne
        have := huniq (j + 1) (by simpa using Nat.succ_lt_succ hj)
          (fun heq => hne (Nat.succ_injective heq))
        exact this
      have hrec := ih b' hb' huniq' (k + 1)
      simp [weighted_sum, ha, hrec]
      omega

theorem getD_map_range {α : Type} (n b : ℕ) (hb : b < n) (f : ℕ → α)
    (d : α) : ((List.range n).map f).getD b d = f b := by
  simp [List.getD_eq_getElem?_getD, List.getElem?_map, List.getElem?_range hb]

theorem hit_row_getD (v : PVal) (edges : List Edge) (b : ℕ)
    (hb : b + 1 < edges.length) :
    (hit_row v edges).getD b false
      = (vgt v (edges.getD b .pinf) && vle v (edges.getD (b + 1) .pinf)) := by
  unfold hit_row
  exact getD_map_range _ b (by omega) _ _

theorem getD_map_num (es : List ℚ) (b : ℕ) (hb : b < es.length) :
    (es.map Edge.num).getD b Edge.pinf = Edge.num (es.getD b 0) := by
  simp [List.getD_eq_getElem?_getD, List.getElem?_map,
    List.getElem?_eq_getElem hb]

theorem hit_row_nan_all_false (edges : List Edge) :
    ∀ x ∈ hit_row PVal.nan edges, x = false := by
  intro x hx
  unfold hit_row at hx
  obtain ⟨b, _, rfl⟩ := List.mem_map.mp hx
  simp [vgt]

theorem getD_false_of_all_false (l : List Bool)
    (h : ∀ x ∈ l, x = false) (b : ℕ) : l.getD b false = false := by
  rcases Nat.lt_or_ge b l.length with hb | hb
  · rw [List.getD_eq_getElem l false hb]
    exact h _ (List.getElem_mem hb)
  · simp [List.getD_eq_getElem?_getD, List.getElem?_eq_none hb]

/-! The claims. -/

/-- C1: the claim says that every Custom-spacing spec passing validation
is re-parsed at run time without error into the same ordered float list,
so no configuration error can surface during a run, with `"0,1,2"`
yielding `[0.0, 1.0, 2.0]` at classification time.  The code contradicts
this — and contradicts the validator's own purpose and the setting's
shipped default `"0,1"` — because `validate_group` splits on `","` while
`run_single_measurement` splits on `", "`: the fully validated spec
`gCustom012` with thresholds text `"0,1,2"` parses to `[0, 1, 2]` in the
validator yet its run-time parse raises (returns `none`), as does the
default text `"0,1"`. -/
theorem C1_validator_accepts_but_runtime_parse_fails :
    validate_group gCustom012 [] = .pass
    ∧ parse_custom_validator "0,1,2" = some [0, 1, 2]
    ∧ parse_custom_runtime "0,1,2" = none
    ∧ parse_custom_validator "0,1" = some [0, 1]
    ∧ parse_custom_runtime "0,1" = none := by
  decide

/-- C2 counterexample: the claim says every object whose membership row
is all False receives winning-bin index 0.  For edges `[0, 1]` and the
non-NaN value 0 the row is `[false]` (0 is not > 0), yet the derived
label is `0*0 + 1 = 1`, not 0. -/
theorem C2_counterexample :
    hit_row (PVal.num 0) [Edge.num 0, Edge.num 1] = [false]
    ∧ object_label (PVal.num 0)
        (hit_row (PVal.num 0) [Edge.num 0, Edge.num 1]) ≠ 0 := by
  decide

/-- C2 amended: the derived per-object winning bin index maps a
NaN-valued object to 0, an object classified into exactly bin `b` to
`b + 1`, and a non-NaN object whose row is all False to 1 (the code
computes `sum(row[b]*b) + 1` and only forces NaN objects to 0, so an
unclassified non-NaN object collides with bin 0's label instead of
getting the reserved 0). -/
theorem C2_winning_bin_labels :
    (∀ row : List Bool, object_label PVal.nan row = 0)
    ∧ (∀ (q : ℚ) (row : List Bool) (b : ℕ),
        row.getD b false = true →
        (∀ j, j < row.length → j ≠ b → row.getD j false = false) →
        object_label (PVal.num q) row = b + 1)
    ∧ (∀ (q : ℚ) (row : List Bool), (∀ x ∈ row, x = false) →
        object_label (PVal.num q) row = 1) := by
  refine ⟨fun row => rfl, ?_, ?_⟩
  · intro q row b hb huniq
    show object_bins row = b + 1
    unfold object_bins
    rw [weighted_sum_unique row b hb huniq 0]
    omega
  · intro q row hall
    show object_bins row = 1
    unfold object_bins
    rw [weighted_sum_all_false row hall 0]

/-- C2 witness: concrete instances of the three amended behaviours. -/
theorem C2_winning_bin_labels_witness :
    object_label PVal.nan [true] = 0
    ∧ object_label (PVal.num 5) [false, true] = 2
    ∧ object_label (PVal.num 5) [false] = 1 := by
  refine ⟨C2_winning_bin_labels.1 [true],
    C2_winning_bin_labels.2.1 5 [false, true] 1 (by decide) ?_,
    C2_winning_bin_labels.2.2 5 [false] (by decide)⟩
  intro j hj hne
  simp only [List.length_cons, List.length_nil] at hj
  interval_cases j
  · rfl
  · exact absurd rfl hne

/-- C3 counterexample: the claim quantifies over every edge sequence of
a spec that passes validation, but validation accepts the non-monotone
custom thresholds `"0, 5, 1, 10"`, the run-time parse hands exactly
those edges to the classifier, and the row of value 3 then has two True
entries (bins 0 and 2 overlap). -/
theorem C3_counterexample :
    validate_group gCustom0510 [] = .pass
    ∧ parse_custom_runtime "0, 5, 1, 10" = some [0, 5, 1, 10]
    ∧ (hit_row (PVal.num 3) ([(0 : ℚ), 5, 1, 10].map Edge.num)).count true
        = 2 := by
  decide

/-- C3 amended: for every edge sequence whose consecutive edges are in
nondecreasing order (which holds for Even spacing with low < high and
for strictly increasing custom thresholds, but is not enforced by
validation) and every value, the membership row has at most one True
entry: the bins are mutually exclusive. -/
theorem C3_bins_mutually_exclusive_of_sorted (edges : List Edge)
    (v : PVal)
    (hs : List.Pairwise (fun a b => eleb a b = true) edges) :
    (hit_row v edges).count true ≤ 1 :=
  hit_row_count_le_one v edges hs

/-- C3 witness: a sorted three-edge sequence and the value 1. -/
theorem C3_bins_mutually_exclusive_of_sorted_witness :
    List.Pairwise (fun a b => eleb a b = true)
      [Edge.ninf, Edge.num 0, Edge.num 2, Edge.pinf]
    ∧ (hit_row (PVal.num 1)
        [Edge.ninf, Edge.num 0, Edge.num 2, Edge.pinf]).count true ≤ 1 :=
  ⟨by decide,
    C3_bins_mutually_exclusive_of_sorted _ (PVal.num 1) (by decide)⟩

/-- C4 counterexample: the claim quantifies over every edge sequence;
for the non-monotone (yet validated and run-time-parseable) edges
`[0, 5, 1, 10]` and the NaN-free vector `[3]` the per-bin counts sum to
2 > 1 = N, refuting both the bound and the "equality iff no NaN"
characterisation. -/
theorem C4_counterexample :
    total_hits [PVal.num 3] ([(0 : ℚ), 5, 1, 10].map Edge.num) = 2
    ∧ ([PVal.num 3] : List PVal).length = 1
    ∧ (∀ v ∈ ([PVal.num 3] : List PVal), v ≠ PVal.nan)
    ∧ ¬ (total_hits [PVal.num 3] ([(0 : ℚ), 5, 1, 10].map Edge.num)
          ≤ ([PVal.num 3] : List PVal).length) := by
  decide

/-- C4 amended: for every edge sequence whose consecutive edges are in
nondecreasing order, the sum over bins of the per-bin counts is at most
N, with equality exactly when every object's row holds a True — i.e.
no value is NaN and none falls outside all bins (a NaN row is all
False, so any NaN still breaks equality, but so does an out-of-range
non-NaN value). -/
theorem C4_sum_counts_le_total_of_sorted (edges : List Edge)
    (values : List PVal)
    (hs : List.Pairwise (fun a b => eleb a b = true) edges) :
    total_hits values edges ≤ values.length
    ∧ (total_hits values edges = values.length ↔
        ∀ v ∈ values, true ∈ hit_row v edges) := by
  induction values with
  | nil => simp [total_hits_nil]
  | cons v vs ih =>
    obtain ⟨ih1, ih2⟩ := ih
    have hrow := hit_row_count_le_one v edges hs
    have hmem : true ∈ hit_row v edges ↔
        (hit_row v edges).count true = 1 := by
      constructor
      · intro hm
        have hpos : 0 < (hit_row v edges).count true :=
          List.count_pos_iff.mpr hm
        omega
      · intro hc
        exact List.count_pos_iff.mp (by omega)
    constructor
    · rw [total_hits_cons, List.length_cons]
      omega
    · rw [total_hits_cons, List.length_cons, List.forall_mem_cons]
      constructor
      · intro heq
        have hsplit : (hit_row v edges).count true = 1
            ∧ total_hits vs edges = vs.length := by omega
        exact ⟨hmem.mpr hsplit.1, ih2.mp hsplit.2⟩
      · intro ⟨h1, h2⟩
        have e1 := hmem.mp h1
        have e2 := ih2.mpr h2
        omega

/-- C4 witness: a sorted edge sequence with one value in a bin and one
NaN value, showing the strict inequality and the equality criterion. -/
theorem C4_sum_counts_le_total_of_sorted_witness :
    List.Pairwise (fun a b => eleb a b = true)
      [Edge.num 0, Edge.num 1, Edge.num 2]
    ∧ total_hits [PVal.num 1, PVal.nan]
        [Edge.num 0, Edge.num 1, Edge.num 2]
      ≤ ([PVal.num 1, PVal.nan] : List PVal).length
    ∧ (total_hits [PVal.num 1, PVal.nan]
          [Edge.num 0, Edge.num 1, Edge.num 2]
        = ([PVal.num 1, PVal.nan] : List PVal).length ↔
        ∀ v ∈ ([PVal.num 1, PVal.nan] : List PVal),
          true ∈ hit_row v [Edge.num 0, Edge.num 1, Edge.num 2]) := by
  have h := C4_sum_counts_le_total_of_sorted
    [Edge.num 0, Edge.num 1, Edge.num 2] [PVal.num 1, PVal.nan] (by decide)
  exact ⟨by decide, h.1, h.2⟩

/-- C5: the membership matrix entry is the half-open interval test
`values[o] > edges[b] AND values[o] <= edges[b+1]` (low side exclusive,
high side inclusive); a NaN value compares False on both sides of every
edge, so a NaN object's row is all False; and a value exactly equal to
the lowest edge of a sorted edge sequence with no low catch bin (finite
first edge) falls in no bin. -/
theorem C5_membership_half_open :
    (∀ (q : ℚ) (es : List ℚ) (b : ℕ), b + 1 < es.length →
      ((hit_row (PVal.num q) (es.map Edge.num)).getD b false = true ↔
        (es.getD b 0 < q ∧ q ≤ es.getD (b + 1) 0)))
    ∧ (∀ e : Edge, vgt PVal.nan e = false ∧ vle PVal.nan e = false)
    ∧ (∀ (edges : List Edge) (b : ℕ),
        (hit_row PVal.nan edges).getD b false = false)
    ∧ (∀ (q0 : ℚ) (edges : List Edge),
        List.Pairwise (fun a b => eleb a b = true) edges →
        edges.getD 0 Edge.pinf = Edge.num q0 →
        ∀ x ∈ hit_row (PVal.num q0) edges, x = false) := by
  refine ⟨?_, ?_, ?_, ?_⟩
  · intro q es b hb
    rw [hit_row_getD _ _ b (by simpa using hb)]
    rw [getD_map_num es b (by omega), getD_map_num es (b + 1) hb]
    simp [vgt, vle]
  · intro e
    cases e <;> simp [vgt, vle]
  · intro edges b
    exact getD_false_of_all_false _ (hit_row_nan_all_false edges) b
  · intro q0 edges hs h0
    cases edges with
    | nil =>
      intro x hx
      simp [hit_row_nil] at hx
    | cons e r =>
      have he : e = Edge.num q0 := h0
      subst he
      exact hit_row_all_false_of_vle (PVal.num q0) r (Edge.num q0)
        (by simp [vle]) hs

/-- C5 witness: for edges `[0, 2, 5]` the value 1 is in bin 0 exactly
because `0 < 1 ≤ 2`; NaN compares False against the edge 0; a NaN row is
all False; and the value 0 — equal to the lowest edge with no low catch
bin — falls in no bin. -/
theorem C5_membership_half_open_witness :
    ((hit_row (PVal.num 1) ([(0 : ℚ), 2, 5].map Edge.num)).getD 0 false
        = true ↔
      (([(0 : ℚ), 2, 5].getD 0 0 < 1 ∧ (1 : ℚ) ≤ [(0 : ℚ), 2, 5].getD 1 0)))
    ∧ (vgt PVal.nan (Edge.num 0) = false ∧ vle PVal.nan (Edge.num 0) = false)
    ∧ (hit_row PVal.nan [Edge.num 0, Edge.num 2]).getD 0 false = false
    ∧ (∀ x ∈ hit_row (PVal.num 0) [Edge.num 0, Edge.num 2, Edge.num 5],
        x = false) :=
  ⟨C5_membership_half_open.1 1 [0, 2, 5] 0 (by decide),
    C5_membership_half_open.2.1 (Edge.num 0),
    C5_membership_half_open.2.2.1 [Edge.num 0, Edge.num 2] 0,
    C5_membership_half_open.2.2.2 0 [Edge.num 0, Edge.num 2, Edge.num 5]
      (by decide) (by decide)⟩

/-- C6: for Even spacing the engine builds `bin_count + 1` equally
spaced edges `low + i*(high-low)/bin_count`, prepends `-inf` when a low
catch bin is wanted and appends `inf` when a high catch bin is wanted,
and the final edge sequence has length exactly `number_of_bins + 1`
(the declared total being `bin_count` plus one per requested catch
bin). -/
theorem C6_even_spacing_edges (g : Group)
    (h : g.bin_choice = BinChoice.even) (hbc : 1 ≤ g.bin_count) :
    (even_base g.low_threshold g.high_threshold g.bin_count).length
        = g.bin_count + 1
    ∧ (∀ i, i ≤ g.bin_count →
        (even_base g.low_threshold g.high_threshold g.bin_count).getD i
            Edge.pinf
          = Edge.num (g.low_threshold
              + (i : ℚ) * (g.high_threshold - g.low_threshold)
                / (g.bin_count : ℚ)))
    ∧ (g.wants_low_bin = true →
        (final_thresholds g
            (even_base g.low_threshold g.high_threshold g.bin_count)).head?
          = some Edge.ninf)
    ∧ (g.wants_high_bin = true →
        (final_thresholds g
            (even_base g.low_threshold g.high_threshold
              g.bin_count)).getLast?
          = some Edge.pinf)
    ∧ (final_thresholds g
          (even_base g.low_threshold g.high_threshold g.bin_count)).length
        = number_of_bins g + 1 := by
  refine ⟨?_, ?_, ?_, ?_, ?_⟩
  · simp [even_base]
  · intro i hi
    unfold even_base
    rw [getD_map_range _ i (by omega)]
    congr 1
    ring
  · intro hlow
    simp [final_thresholds, hlow, even_base]
  · intro hhigh
    simp [final_thresholds, hhigh]
  · unfold final_thresholds number_of_bins
    rw [h]
    cases hl : g.wants_low_bin <;> cases hh : g.wants_high_bin <;>
      simp [even_base]

/-- C6 witness: Even spacing, low 0, high 10, two bins, both catch
bins: edges `[-inf, 0, 5, 10, inf]`. -/
theorem C6_even_spacing_edges_witness :
    gEvenWitness.bin_choice = BinChoice.even
    ∧ 1 ≤ gEvenWitness.bin_count
    ∧ (even_base gEvenWitness.low_threshold gEvenWitness.high_threshold
        gEvenWitness.bin_count).length = gEvenWitness.bin_count + 1
    ∧ (final_thresholds gEvenWitness
        (even_base gEvenWitness.low_threshold gEvenWitness.high_threshold
          gEvenWitness.bin_count)).length
      = number_of_bins gEvenWitness + 1 := by
  have h := C6_even_spacing_edges gEvenWitness rfl (by decide)
  exact ⟨rfl, by decide, h.1, h.2.2.2.2⟩

/-- C7: an empty measurement vector yields count 0 and percentage 0 in
every bin with no division fault (the guard returns the rational 0, not
an undefined value), and for a non-empty vector the percentage is
`100 * count / N` with N the full object count. -/
theorem C7_empty_vector_safe (edges : List Edge) (b : ℕ) :
    num_hits [] edges b = 0
    ∧ pct_per_bin [] edges b = 0
    ∧ (∀ values : List PVal, 0 < values.length →
        pct_per_bin values edges b
          = 100 * (num_hits values edges b : ℚ) / (values.length : ℚ)) := by
  refine ⟨num_hits_nil edges b, ?_, ?_⟩
  · simp [pct_per_bin]
  · intro values hlen
    simp [pct_per_bin, hlen]

/-- C7 witness: the empty vector and a singleton vector against edges
`[0, 1]`. -/
theorem C7_empty_vector_safe_witness :
    num_hits [] [Edge.num 0, Edge.num 1] 0 = 0
    ∧ pct_per_bin [] [Edge.num 0, Edge.num 1] 0 = 0
    ∧ pct_per_bin [PVal.num 1] [Edge.num 0, Edge.num 1] 0
        = 100 * (num_hits [PVal.num 1] [Edge.num 0, Edge.num 1] 0 : ℚ)
          / (([PVal.num 1] : List PVal).length : ℚ) := by
  have h := C7_empty_vector_safe [Edge.num 0, Edge.num 1] 0
  exact ⟨h.1, h.2.1, h.2.2 [PVal.num 1] (by decide)⟩

/-- C8 counterexample: the claim says a custom-name count mismatch makes
validation fail pointing at the bin-names setting, but the bin-count
rule fires first: `gZeroBins` (custom thresholds `"0"`, zero bins, one
custom name, so the counts differ) fails pointing at the
custom-thresholds setting instead. -/
theorem C8_counterexample :
    gZeroBins.wants_custom_names = true
    ∧ (bin_feature_names gZeroBins []).length ≠ number_of_bins gZeroBins
    ∧ validate_group gZeroBins []
        = .fail (.too_few_bins Setting.custom_thresholds_s)
    ∧ (VError.too_few_bins Setting.custom_thresholds_s).setting
        ≠ Setting.bin_names_s := by
  decide

/-- C8 amended: provided the computed total bin count is at least 1 (so
the earlier at-least-one-bin rule does not fire first), a custom-name
count different from the bin count makes validation fail with the
name-count error, which points at the bin-names setting; and when the
counts match, that rule passes — any validation failure is some other
rule's error. -/
theorem C8_name_count_rule (g : Group) (priors : List Group)
    (hbc : 1 ≤ number_of_bins g) :
    ((bin_feature_names g priors).length ≠ number_of_bins g →
      validate_group g priors
        = .fail (.bad_name_count (bin_feature_names g priors).length
            (number_of_bins g))
      ∧ (VError.bad_name_count (bin_feature_names g priors).length
          (number_of_bins g)).setting = Setting.bin_names_s)
    ∧ ((bin_feature_names g priors).length = number_of_bins g →
      ∀ e, validate_group g priors = .fail e →
        e.isNameCountError = false) := by
  constructor
  · intro hne
    refine ⟨?_, rfl⟩
    simp only [validate_group]
    rw [if_neg (by omega), if_pos hne]
  · intro heq e hval
    simp only [validate_group] at hval
    rw [if_neg (by omega), if_neg (by simp [heq])] at hval
    split at hval
    · injection hval with h
      subst h
      rfl
    · split at hval
      · split at hval
        · exact absurd hval (by simp)
        · injection hval with h
          subst h
          rfl
      · exact absurd hval (by simp)

/-- C8 witness: `gNamesMismatch` (two bins, three names) fails with the
name-count error pointing at bin-names; `gNamesMatch` (two bins, two
names) passes the rule. -/
theorem C8_name_count_rule_witness :
    (validate_group gNamesMismatch []
        = .fail (.bad_name_count 3 2)
      ∧ (VError.bad_name_count 3 2).setting = Setting.bin_names_s)
    ∧ (∀ e, validate_group gNamesMatch [] = .fail e →
        e.isNameCountError = false) := by
  constructor
  · have h := (C8_name_count_rule gNamesMismatch [] (by decide)).1 (by decide)
    exact h
  · exact (C8_name_count_rule gNamesMatch [] (by decide)).2 (by decide)

/-- C9: with no custom names the generated feature names are
`{measurement_name}_Bin_{i+1}` for `i` below the bin count, where the
measurement name of a spec with `k > 0` earlier same-measurement
siblings (by declaration order) carries `k` as a numeric suffix and a
spec with no earlier same-measurement sibling is unsuffixed. -/
theorem C9_auto_feature_names (g : Group) (priors : List Group)
    (h : g.wants_custom_names = false) :
    bin_feature_names g priors
      = (List.range (number_of_bins g)).map
          (fun i => measurement_name g priors ++ "_Bin_" ++ toString (i + 1))
    ∧ ((priors.filter (fun o => o.measurement == g.measurement)).length = 0 →
        measurement_name g priors = g.measurement)
    ∧ (0 < (priors.filter
          (fun o => o.measurement == g.measurement)).length →
        measurement_name g priors
          = g.measurement
            ++ toString (priors.filter
                (fun o => o.measurement == g.measurement)).length) := by
  refine ⟨?_, ?_, ?_⟩
  · rw [bin_feature_names, if_neg (by simp [h])]
    apply List.map_congr_left
    intro i _
    have hlit : ("_Bin_" : String) = "_" ++ "Bin_" := by decide
    rw [hlit, String.append_assoc, String.append_assoc,
      String.append_assoc]
  · intro hk
    simp [measurement_name, hk]
  · intro hk
    simp [measurement_name, hk]

/-- C9 witness: a spec named `"M"` with one earlier `"M"` sibling and
two bins gets names `M1_Bin_1`, `M1_Bin_2`; with no earlier sibling it
stays `M`. -/
theorem C9_auto_feature_names_witness :
    bin_feature_names gNamesAuto [gCustom012]
      = (List.range (number_of_bins gNamesAuto)).map
          (fun i => measurement_name gNamesAuto [gCustom012]
            ++ "_Bin_" ++ toString (i + 1))
    ∧ measurement_name gNamesAuto [gCustom012] = "M1"
    ∧ measurement_name gNamesAuto [] = "M" := by
  refine ⟨(C9_auto_feature_names gNamesAuto [gCustom012] rfl).1, ?_,
    (C9_auto_feature_names gNamesAuto [] rfl).2.1 (by decide)⟩
  have h := (C9_auto_feature_names gNamesAuto [gCustom012] rfl).2.2
    (by decide)
  rw [h]
  decide

/-- C10: validation never checks that custom thresholds increase — the
spec with thresholds text `"3,2,1"` passes validation, and for the
comma-space variant `"3, 2, 1"` (also validated) the run-time parse
succeeds and hands the non-monotone edges `[3, 2, 1]` to the
classifier. -/
theorem C10_no_monotonicity_check :
    validate_group gCustom321 [] = .pass
    ∧ validate_group gCustom321sp [] = .pass
    ∧ parse_custom_runtime "3, 2, 1" = some [3, 2, 1]
    ∧ ¬ List.Pairwise (fun a b => a ≤ b) [(3 : ℚ), 2, 1] := by
  decide

end DynamicClassifyObjects
